import Mathlib

/-!
Verification of the openraft storage contract (`src/openraft/src/storage.rs`).

The data model (`LogId`, `Entry`, `EntryPayload`, `Membership`,
`EffectiveMembership`, `HardState`, `InitialState`) and the two default
trait methods with bodies in the source (`RaftStorage::get_membership` and
`RaftStorage::last_membership_in_log`), together with
`InitialState::new_initial`, are embedded below.  The abstract trait
primitives (`last_applied_state`, `first_id_in_log`, `last_id_in_log`,
`try_get_log_entries`, `apply_to_state_machine`) have no implementation in
the source; they are modelled from the spec over an explicit in-memory
storage state.
-/

namespace Openraft

/-- Node identifier (`NodeId = u64` in the source, modelled as `Nat`). -/
abbrev NodeId := Nat

/-- `LogId {term: u64, index: u64}` — identifies a log position. -/
structure LogId where
  term : Nat
  index : Nat
deriving DecidableEq, Repr

/-- Modelled from the spec: `Membership` is the set of voting node
identifiers and optionally a set of non-voting learner identifiers
(the concrete `Membership` type lives outside `storage.rs`). -/
structure Membership where
  members : List NodeId
  learners : List NodeId
deriving DecidableEq, Repr

/-- Modelled from the spec: `Membership::new_initial(id)` builds a
single-node membership containing only this node's id. -/
def Membership.new_initial (id : NodeId) : Membership :=
  { members := [id], learners := [] }

/-- `EffectiveMembership {log_id, membership}` — a membership annotated with
the log id that introduced it. -/
structure EffectiveMembership where
  log_id : LogId
  membership : Membership
deriving DecidableEq, Repr

/-- Snapshot identifier (`SnapshotId`, opaque; modelled as `String`). -/
abbrev SnapshotId := String

/-- `SnapshotMeta {last_log_id, snapshot_id}` from the source. -/
structure SnapshotMeta where
  last_log_id : LogId
  snapshot_id : SnapshotId
deriving DecidableEq, Repr

/-- Modelled from the spec: `EntryPayload` is a variant over `Blank`,
`Normal(application command)`, `Membership(config)` and
`SnapshotPointer(metadata)` (the concrete type lives outside `storage.rs`);
the application command is opaque, modelled as `Nat`. -/
inductive EntryPayload where
  | Blank : EntryPayload
  | Normal (data : Nat) : EntryPayload
  | Membership (mem : Membership) : EntryPayload
  | SnapshotPointer (meta : SnapshotMeta) : EntryPayload
deriving DecidableEq, Repr

/-- `Entry {log_id, payload}` — one record of the replicated log. -/
structure Entry where
  log_id : LogId
  payload : EntryPayload
deriving DecidableEq, Repr

/-- The log index of an entry. -/
def Entry.index (e : Entry) : Nat :=
  e.log_id.index

/-- `true` iff the entry's payload is a `Membership` payload. -/
def Entry.isMembership (e : Entry) : Bool :=
  match e.payload with
  | EntryPayload.Membership _ => true
  | _ => false

/-- `HardState {current_term, voted_for}` from the source. -/
structure HardState where
  current_term : Nat
  voted_for : Option NodeId
deriving DecidableEq, Repr

/-- `InitialState {last_log_id, last_applied, hard_state, last_membership}`
from the source. -/
structure InitialState where
  last_log_id : LogId
  last_applied : LogId
  hard_state : HardState
  last_membership : EffectiveMembership
deriving DecidableEq, Repr

/-- `InitialState::new_initial(id)` from the source: the state of a pristine
Raft node. -/
def InitialState.new_initial (id : NodeId) : InitialState :=
  { last_log_id := { term := 0, index := 0 }
    last_applied := { term := 0, index := 0 }
    hard_state := { current_term := 0, voted_for := none }
    last_membership :=
      { log_id := { term := 0, index := 0 }
        membership := Membership.new_initial id } }

/-- `StorageError` — opaque storage-failure value carried by `Result`. -/
structure StorageError where
  msg : String
deriving DecidableEq, Repr

/-- Modelled from the spec: the durable state a `RaftStorage` implementation
holds, as far as the membership-resolution and apply claims need it — the
physically stored log (entries in increasing index order), the last applied
log id and the last membership applied to the state machine. -/
structure StorageState where
  log : List Entry
  last_applied : LogId
  sm_mem : Option EffectiveMembership
deriving DecidableEq, Repr

/-- Well-formedness from the data model: within a node's log the index is
strictly increasing along the stored order. -/
def StorageState.WF (s : StorageState) : Prop :=
  s.log.Pairwise (fun a b => a.index < b.index)

instance (s : StorageState) : Decidable s.WF := by
  unfold StorageState.WF; infer_instance

/-- Modelled from the spec: trait method `last_applied_state` returns the
last applied log id recorded in the state machine and the last applied
membership; reads never fail in the in-memory model. -/
def last_applied_state (s : StorageState) :
    Except StorageError (LogId × Option EffectiveMembership) :=
  Except.ok (s.last_applied, s.sm_mem)

/-- Modelled from the spec: trait method `first_id_in_log` returns the first
log id physically stored in the log, or `None` when the log is empty. -/
def first_id_in_log (s : StorageState) : Except StorageError (Option LogId) :=
  Except.ok (s.log.head?.map Entry.log_id)

/-- The last log id physically stored, `LogId{0,0}` for an empty log (the
trait returns a bare `LogId`; the scan only uses it when the log is
nonempty). -/
def last_log_id_of (s : StorageState) : LogId :=
  (s.log.getLast?.map Entry.log_id).getD { term := 0, index := 0 }

/-- Modelled from the spec: trait method `last_id_in_log` returns the last
log id physically stored in the log. -/
def last_id_in_log (s : StorageState) : Except StorageError LogId :=
  Except.ok (last_log_id_of s)

/-- The entries stored in the half-open index range `[start, stop)`, in
stored (increasing-index) order. -/
def log_entries_in_range (s : StorageState) (start stop : Nat) : List Entry :=
  s.log.filter (fun e => decide (start ≤ e.index) && decide (e.index < stop))

/-- Modelled from the spec: trait method `try_get_log_entries(start..stop)`
returns the entries that exist in `[start, stop)`; a missing entry is not an
error. -/
def try_get_log_entries (s : StorageState) (start stop : Nat) :
    Except StorageError (List Entry) :=
  Except.ok (log_entries_in_range s start stop)

/-- The `for ent in entries.iter().rev()` loop body of
`last_membership_in_log`: the first entry of the given list whose payload is
`Membership`, packed as an `EffectiveMembership` (the caller passes the
window reversed). -/
def find_membership : List Entry → Option EffectiveMembership
  | [] => none
  | ent :: rest =>
    match ent.payload with
    | EntryPayload.Membership mem =>
        some { log_id := ent.log_id, membership := mem }
    | _ => find_membership rest

/-- The `while start < end` loop of `RaftStorage::last_membership_in_log`:
read `[start, end)`, look for a `Membership` payload from the back, and on
failure retry with `end` lowered by the step 64 (`end.saturating_sub(step)`,
which is truncated `Nat` subtraction). -/
def membership_scan (s : StorageState) (start endIdx : Nat) :
    Except StorageError (Option EffectiveMembership) :=
  if _h : start < endIdx then
    match try_get_log_entries s start endIdx with
    | Except.error e => Except.error e
    | Except.ok entries =>
      match find_membership entries.reverse with
      | some em => Except.ok (some em)
      | none => membership_scan s start (endIdx - 64)
  else
    Except.ok none
  termination_by endIdx
  decreasing_by omega

/-- `RaftStorage::last_membership_in_log(since_index)` from the source:
return the membership with the greatest log index `≥ since_index` still in
the log, scanning backward from the tail. -/
def last_membership_in_log (s : StorageState) (since_index : Nat) :
    Except StorageError (Option EffectiveMembership) :=
  match last_id_in_log s with
  | Except.error e => Except.error e
  | Except.ok last_log_id =>
    match first_id_in_log s with
    | Except.error e => Except.error e
    | Except.ok none => Except.ok none
    | Except.ok (some first_log_id) =>
      membership_scan s (max first_log_id.index since_index) (last_log_id.index + 1)

/-- `RaftStorage::get_membership` from the source: the last membership found
in log or state machine. -/
def get_membership (s : StorageState) :
    Except StorageError (Option EffectiveMembership) :=
  match last_applied_state s with
  | Except.error e => Except.error e
  | Except.ok (_, sm_mem) =>
    let sm_mem_index :=
      match sm_mem with
      | none => 0
      | some mem => mem.log_id.index
    match last_membership_in_log s (sm_mem_index + 1) with
    | Except.error e => Except.error e
    | Except.ok log_mem =>
      if log_mem.isSome then Except.ok log_mem else Except.ok sm_mem

/-- The applied-membership index `get_membership` computes internally:
`0` when no membership was applied, else the applied membership's log index. -/
def sm_mem_index (s : StorageState) : Nat :=
  match s.sm_mem with
  | none => 0
  | some mem => mem.log_id.index

/-- The spec's description of the scan outcome, for comparison with the
implementation: a single reverse pass over the entire range
`[max(first_id_in_log.index, since_index), last_id_in_log.index + 1)`,
returning the `Membership` entry found first from the back. -/
def single_reverse_pass_membership (s : StorageState) (since_index : Nat) :
    Option EffectiveMembership :=
  match s.log.head?.map Entry.log_id with
  | none => none
  | some first_log_id =>
    find_membership
      (log_entries_in_range s (max first_log_id.index since_index)
        ((last_log_id_of s).index + 1)).reverse

/-- The result of `get_membership` as a plain value (the dominance rule of
the source: a membership found in the log wins, else the state-machine
membership). -/
def get_membership_pure (s : StorageState) : Option EffectiveMembership :=
  let log_mem := single_reverse_pass_membership s (sm_mem_index s + 1)
  if log_mem.isSome then log_mem else s.sm_mem

/-- The successive `(start, end)` ranges the while-loop of
`last_membership_in_log` passes to `try_get_log_entries`, one per iteration:
the loop stops after a range in which a `Membership` payload is found,
otherwise lowers `end` by the step 64 and retries. -/
def scan_queries (s : StorageState) (start endIdx : Nat) : List (Nat × Nat) :=
  if _h : start < endIdx then
    (start, endIdx) ::
      (match find_membership (log_entries_in_range s start endIdx).reverse with
       | some _ => []
       | none => scan_queries s start (endIdx - 64))
  else []
  termination_by endIdx
  decreasing_by omega

/-- The ranges `last_membership_in_log(since_index)` passes to
`try_get_log_entries` (none when the log is empty and the scan never runs). -/
def last_membership_in_log_queries (s : StorageState) (since_index : Nat) :
    List (Nat × Nat) :=
  match s.log.head?.map Entry.log_id with
  | none => []
  | some first_log_id =>
    scan_queries s (max first_log_id.index since_index) ((last_log_id_of s).index + 1)

/-- The full chain of ranges the loop would pass if no membership were ever
found: fixed lower bound, upper bound lowered by 64 each step. -/
def scan_chain (start endIdx : Nat) : List (Nat × Nat) :=
  if _h : start < endIdx then (start, endIdx) :: scan_chain start (endIdx - 64)
  else []
  termination_by endIdx
  decreasing_by omega

/-- The fixed lower bound of every range the scan reads. -/
def scan_start_of (s : StorageState) (since_index : Nat) : Nat :=
  max (((s.log.head?.map Entry.log_id).getD { term := 0, index := 0 }).index) since_index

/-- The full range chain of `last_membership_in_log(since_index)`. -/
def scan_chain_of (s : StorageState) (since_index : Nat) : List (Nat × Nat) :=
  match s.log.head?.map Entry.log_id with
  | none => []
  | some first_log_id =>
    scan_chain (max first_log_id.index since_index) ((last_log_id_of s).index + 1)

/-- The `while start < end` loop of `last_membership_in_log` instrumented
with explicit fuel, one unit per iteration: `none` when the fuel runs out
before the loop finishes, `some` the loop's result otherwise. -/
def membership_scan_fuel (s : StorageState) (start : Nat) :
    Nat → Nat → Option (Except StorageError (Option EffectiveMembership))
  | _, 0 => none
  | endIdx, fuel + 1 =>
    if start < endIdx then
      match try_get_log_entries s start endIdx with
      | Except.error e => some (Except.error e)
      | Except.ok entries =>
        match find_membership entries.reverse with
        | some em => some (Except.ok (some em))
        | none => membership_scan_fuel s start (endIdx - 64) fuel
    else
      some (Except.ok none)

/-- Modelled from the spec: the state-machine side effect of one applied
entry — `last_applied` advances to the entry's log id and a `Membership`
payload updates the tracked applied membership (the per-entry response is
opaque to this contract and omitted). -/
def apply_one (s : StorageState) (e : Entry) : StorageState :=
  { s with
    last_applied := e.log_id
    sm_mem :=
      match e.payload with
      | EntryPayload.Membership mem => some { log_id := e.log_id, membership := mem }
      | _ => s.sm_mem }

/-- Modelled from the spec: trait method `apply_to_state_machine(entries)`
applies the entries strictly in the order given. -/
def apply_to_state_machine (s : StorageState) (entries : List Entry) : StorageState :=
  entries.foldl apply_one s

/-- A sequence of apply calls, batch after batch. -/
def apply_batches (s : StorageState) (batches : List (List Entry)) : StorageState :=
  batches.foldl apply_to_state_machine s

/-- Modelled from the spec: a batch handed to `apply_to_state_machine` is
strictly increasing by log index with no gaps relative to the previously
applied index `prev` — its indices are exactly `prev+1, prev+2, ...`. -/
def valid_batch (prev : Nat) (entries : List Entry) : Prop :=
  entries.map Entry.index = List.range' (prev + 1) entries.length

instance (prev : Nat) (entries : List Entry) : Decidable (valid_batch prev entries) := by
  unfold valid_batch; infer_instance

/-- Every batch of the sequence is gap-free relative to the index applied
before it. -/
def valid_batches : Nat → List (List Entry) → Prop
  | _, [] => True
  | prev, b :: bs => valid_batch prev b ∧ valid_batches (prev + b.length) bs

instance valid_batches_decidable :
    (prev : Nat) → (bs : List (List Entry)) → Decidable (valid_batches prev bs)
  | _, [] => Decidable.isTrue trivial
  | prev, b :: bs =>
    have : Decidable (valid_batches (prev + b.length) bs) :=
      valid_batches_decidable (prev + b.length) bs
    inferInstanceAs (Decidable (valid_batch prev b ∧ valid_batches (prev + b.length) bs))

/-- The applied index `last_applied_state` reports after the first `i`
batches of the sequence. -/
def applied_after (s0 : StorageState) (batches : List (List Entry)) (i : Nat) : Nat :=
  (apply_batches s0 (batches.take i)).last_applied.index

/-- `em` is the log membership with the greatest index and that index is
above `k`: its entry is stored in the log past index `k`, and no stored
`Membership` entry has a greater index. -/
def greatest_log_membership_above (s : StorageState) (k : Nat)
    (em : EffectiveMembership) : Prop :=
  ({ log_id := em.log_id, payload := EntryPayload.Membership em.membership } : Entry) ∈ s.log ∧
  k < em.log_id.index ∧
  ∀ e ∈ s.log, e.isMembership = true → e.index ≤ em.log_id.index

instance (s : StorageState) (k : Nat) (em : EffectiveMembership) :
    Decidable (greatest_log_membership_above s k em) := by
  unfold greatest_log_membership_above; infer_instance

/-! Concrete states used by witnesses and counterexamples. -/

/-- A three-node voting configuration. -/
def memA : Membership := { members := [0, 1, 2], learners := [] }

/-- A two-node voting configuration. -/
def memB : Membership := { members := [0, 1], learners := [] }

/-- A membership applied to the state machine at log index 5. -/
def m5 : EffectiveMembership := { log_id := { term := 1, index := 5 }, membership := memB }

/-- A membership sitting in the log at index 9, not yet applied. -/
def em9 : EffectiveMembership := { log_id := { term := 2, index := 9 }, membership := memA }

/-- Applied membership at index 5; the log still holds entries 6, 7 and a
`Membership` entry at index 9. -/
def c1s : StorageState :=
  { log :=
      [ { log_id := { term := 1, index := 6 }, payload := EntryPayload.Blank }
      , { log_id := { term := 2, index := 7 }, payload := EntryPayload.Normal 1 }
      , { log_id := { term := 2, index := 9 }, payload := EntryPayload.Membership memA } ]
    last_applied := { term := 2, index := 7 }
    sm_mem := some m5 }

/-- The same machine after the log was compacted past index 9 with no
state-machine update: no `Membership` entry remains in the log. -/
def c1sc : StorageState :=
  { log := [ { log_id := { term := 2, index := 10 }, payload := EntryPayload.Normal 2 } ]
    last_applied := { term := 2, index := 7 }
    sm_mem := some m5 }

/-- Memberships in the log at indices 4 and 9; scanning since index 3 must
pick index 9, not index 4. -/
def c2s : StorageState :=
  { log :=
      [ { log_id := { term := 1, index := 4 }, payload := EntryPayload.Membership memB }
      , { log_id := { term := 1, index := 6 }, payload := EntryPayload.Blank }
      , { log_id := { term := 2, index := 9 }, payload := EntryPayload.Membership memA } ]
    last_applied := { term := 1, index := 4 }
    sm_mem := none }

/-- 66 `Blank` entries at indices 1..66: the first scan range spans the whole
log, 66 indices wide. -/
def c4s : StorageState :=
  { log :=
      (List.range 66).map
        (fun i => { log_id := { term := 1, index := i + 1 }, payload := EntryPayload.Blank })
    last_applied := { term := 0, index := 0 }
    sm_mem := none }

/-- A pristine state machine with a `Membership` entry stored at log index 0. -/
def c5x : StorageState :=
  { log := [ { log_id := { term := 1, index := 0 }, payload := EntryPayload.Membership memA } ]
    last_applied := { term := 0, index := 0 }
    sm_mem := none }

/-- A pristine state machine with a `Membership` entry stored at log index 2. -/
def c5s : StorageState :=
  { log :=
      [ { log_id := { term := 1, index := 1 }, payload := EntryPayload.Blank }
      , { log_id := { term := 1, index := 2 }, payload := EntryPayload.Membership memA } ]
    last_applied := { term := 0, index := 0 }
    sm_mem := none }

/-- An entirely empty log over a state machine that has applied membership
`m5`. -/
def c6s : StorageState :=
  { log := [], last_applied := { term := 1, index := 5 }, sm_mem := some m5 }

/-- Blank entries at indices 3 and 4 and nothing else: no membership at all. -/
def c8s : StorageState :=
  { log :=
      [ { log_id := { term := 1, index := 3 }, payload := EntryPayload.Blank }
      , { log_id := { term := 1, index := 4 }, payload := EntryPayload.Normal 7 } ]
    last_applied := { term := 1, index := 4 }
    sm_mem := some m5 }

/-- A small state for exercising the scan-collapse equality. -/
def c10s : StorageState :=
  { log :=
      [ { log_id := { term := 1, index := 2 }, payload := EntryPayload.Membership memB }
      , { log_id := { term := 1, index := 3 }, payload := EntryPayload.Blank } ]
    last_applied := { term := 1, index := 3 }
    sm_mem := none }

/-- Initial state for the apply-sequence witness. -/
def c3s0 : StorageState :=
  { log := [], last_applied := { term := 0, index := 0 }, sm_mem := none }

/-- Two gap-free batches: `[1]` then `[2, 3]`. -/
def c3batches : List (List Entry) :=
  [ [ { log_id := { term := 1, index := 1 }, payload := EntryPayload.Blank } ]
  , [ { log_id := { term := 1, index := 2 }, payload := EntryPayload.Normal 0 }
    , { log_id := { term := 1, index := 3 }, payload := EntryPayload.Membership memA } ] ]

/-! Helper lemmas. -/

theorem log_entries_in_range_nil (s : StorageState) {start stop : Nat} (h : stop ≤ start) :
    log_entries_in_range s start stop = [] := by
  unfold log_entries_in_range
  apply List.filter_eq_nil_iff.mpr
  intro e _
  simp only [Bool.and_eq_true, decide_eq_true_eq, not_and]
  omega

theorem mem_log_entries_in_range {s : StorageState} {start stop : Nat} {e : Entry} :
    e ∈ log_entries_in_range s start stop ↔
      e ∈ s.log ∧ start ≤ e.index ∧ e.index < stop := by
  unfold log_entries_in_range
  simp [List.mem_filter]

theorem find_membership_eq_none {l : List Entry} :
    find_membership l = none ↔ ∀ e ∈ l, e.isMembership = false := by
  induction l with
  | nil => simp [find_membership]
  | cons a t ih =>
    cases ha : a.payload <;>
      simp [find_membership, ha, Entry.isMembership, ih]

theorem isMembership_iff {e : Entry} :
    e.isMembership = true ↔ ∃ mem, e.payload = EntryPayload.Membership mem := by
  cases h : e.payload <;> simp [Entry.isMembership, h]

theorem find_membership_cons_of_not {e : Entry} {t : List Entry}
    (h : e.isMembership = false) :
    find_membership (e :: t) = find_membership t := by
  cases hp : e.payload with
  | Membership mem => simp [Entry.isMembership, hp] at h
  | Blank => simp [find_membership, hp]
  | Normal d => simp [find_membership, hp]
  | SnapshotPointer m => simp [find_membership, hp]

theorem find_membership_cons_of_mem {e : Entry} {t : List Entry} {mem : Membership}
    (h : e.payload = EntryPayload.Membership mem) :
    find_membership (e :: t) = some { log_id := e.log_id, membership := mem } := by
  simp [find_membership, h]

theorem pairwise_filter_entries {l : List Entry} (p : Entry → Bool)
    (h : l.Pairwise (fun a b => a.index < b.index)) :
    (l.filter p).Pairwise (fun a b => a.index < b.index) :=
  h.filter p

theorem wf_first_le {s : StorageState} (hwf : s.WF) {e0 e : Entry}
    (h0 : s.log.head? = some e0) (he : e ∈ s.log) : e0.index ≤ e.index := by
  unfold StorageState.WF at hwf
  cases hl : s.log with
  | nil => rw [hl] at he; cases he
  | cons a t =>
    rw [hl] at h0 he hwf
    simp only [List.head?_cons, Option.some.injEq] at h0
    subst h0
    rcases List.mem_cons.mp he with rfl | hmem
    · exact le_refl _
    · exact le_of_lt ((List.pairwise_cons.mp hwf).1 e hmem)

theorem le_last_of_pairwise :
    ∀ {l : List Entry}, l.Pairwise (fun a b => a.index < b.index) →
      ∀ {e}, e ∈ l →
        e.index ≤ (((l.getLast?.map Entry.log_id).getD { term := 0, index := 0 })).index := by
  intro l
  induction l using List.reverseRecOn with
  | nil => intro _ e he; cases he
  | append_singleton l a ih =>
    intro hp e he
    rw [List.getLast?_concat]
    simp only [Option.map_some', Option.getD_some]
    rcases List.mem_append.mp he with hl | ha
    · exact le_of_lt ((List.pairwise_append.mp hp).2.2 e hl a (by simp))
    · rw [List.mem_singleton] at ha; subst ha; exact le_refl _

theorem wf_le_last {s : StorageState} (hwf : s.WF) {e : Entry} (he : e ∈ s.log) :
    e.index ≤ (last_log_id_of s).index :=
  le_last_of_pairwise hwf he

theorem range_full {s : StorageState} (hwf : s.WF) (start : Nat) :
    log_entries_in_range s start ((last_log_id_of s).index + 1)
      = s.log.filter (fun e => decide (start ≤ e.index)) := by
  unfold log_entries_in_range
  apply List.filter_congr
  intro e he
  have h := wf_le_last hwf he
  have h2 : e.index < (last_log_id_of s).index + 1 := by omega
  simp [decide_eq_true h2]

theorem find_reverse_max :
    ∀ {l : List Entry}, l.Pairwise (fun a b => a.index < b.index) →
      ∀ {em}, find_membership l.reverse = some em →
        ({ log_id := em.log_id, payload := EntryPayload.Membership em.membership } : Entry) ∈ l ∧
        ∀ e ∈ l, e.isMembership = true → e.index ≤ em.log_id.index := by
  intro l
  induction l using List.reverseRecOn with
  | nil => intro _ em h; simp [find_membership] at h
  | append_singleton l a ih =>
    intro hp em h
    have hpl : l.Pairwise (fun a b => a.index < b.index) := (List.pairwise_append.mp hp).1
    have hlast : ∀ e ∈ l, e.index < a.index := fun e hel =>
      (List.pairwise_append.mp hp).2.2 e hel a (by simp)
    rw [List.reverse_append, List.reverse_singleton, List.singleton_append] at h
    cases hb : a.isMembership with
    | true =>
      obtain ⟨mem, hpay⟩ := isMembership_iff.mp hb
      rw [find_membership_cons_of_mem hpay, Option.some.injEq] at h
      subst h
      constructor
      · apply List.mem_append_right
        have : a = { log_id := a.log_id, payload := EntryPayload.Membership mem } := by
          cases a; simp_all
        rw [← this]
        exact List.mem_singleton.mpr rfl
      · intro e he _
        rcases List.mem_append.mp he with hel | hea
        · exact le_of_lt (hlast e hel)
        · rw [List.mem_singleton] at hea; subst hea; exact le_refl _
    | false =>
      rw [find_membership_cons_of_not hb] at h
      obtain ⟨hin, hmax⟩ := ih hpl h
      refine ⟨List.mem_append_left _ hin, ?_⟩
      intro e he hm
      rcases List.mem_append.mp he with hel | hea
      · exact hmax e hel hm
      · rw [List.mem_singleton] at hea; subst hea
        rw [hb] at hm; cases hm

theorem index_inj :
    ∀ {l : List Entry}, l.Pairwise (fun a b => a.index < b.index) →
      ∀ {e1 e2 : Entry}, e1 ∈ l → e2 ∈ l → e1.index = e2.index → e1 = e2 := by
  intro l
  induction l with
  | nil => intro _ e1 e2 h; cases h
  | cons a t ih =>
    intro hp e1 e2 h1 h2 heq
    have hlt := (List.pairwise_cons.mp hp).1
    have hpt := (List.pairwise_cons.mp hp).2
    rcases List.mem_cons.mp h1 with h1a | h1t
    · rcases List.mem_cons.mp h2 with h2a | h2t
      · rw [h1a, h2a]
      · exact absurd heq (by rw [h1a]; have := hlt e2 h2t; omega)
    · rcases List.mem_cons.mp h2 with h2a | h2t
      · exact absurd heq (by rw [h2a]; have := hlt e1 h1t; omega)
      · exact ih hpt h1t h2t heq

theorem membership_scan_eq (s : StorageState) (start : Nat) :
    ∀ endIdx, membership_scan s start endIdx
      = Except.ok (find_membership (log_entries_in_range s start endIdx).reverse) := by
  intro endIdx
  induction endIdx using Nat.strong_induction_on with
  | _ endIdx ih =>
    rw [membership_scan.eq_def]
    by_cases h : start < endIdx
    · rw [dif_pos h]
      cases hf : find_membership (log_entries_in_range s start endIdx).reverse with
      | some em => simp [try_get_log_entries, hf]
      | none =>
        simp only [try_get_log_entries, hf]
        rw [ih (endIdx - 64) (by omega)]
        congr 1
        apply find_membership_eq_none.mpr
        intro e he
        rw [List.mem_reverse, mem_log_entries_in_range] at he
        apply find_membership_eq_none.mp hf
        rw [List.mem_reverse, mem_log_entries_in_range]
        exact ⟨he.1, he.2.1, by omega⟩
    · rw [dif_neg h]
      rw [log_entries_in_range_nil s (by omega)]
      simp [find_membership]

theorem last_membership_in_log_eq (s : StorageState) (since_index : Nat) :
    last_membership_in_log s since_index
      = Except.ok (single_reverse_pass_membership s since_index) := by
  unfold last_membership_in_log single_reverse_pass_membership last_id_in_log first_id_in_log
  cases h : s.log.head?.map Entry.log_id with
  | none => simp [h]
  | some fid => simp [h, membership_scan_eq]

theorem get_membership_eq (s : StorageState) :
    get_membership s = Except.ok (get_membership_pure s) := by
  unfold get_membership get_membership_pure last_applied_state sm_mem_index
  cases hs : s.sm_mem with
  | none =>
    cases hp : single_reverse_pass_membership s (0 + 1) <;>
      simp [hs, last_membership_in_log_eq, hp]
  | some m =>
    cases hp : single_reverse_pass_membership s (m.log_id.index + 1) <;>
      simp [hs, last_membership_in_log_eq, hp]

theorem last_membership_in_log_none (s : StorageState) (since_index : Nat)
    (h : ∀ e ∈ s.log, e.isMembership = true → e.index < since_index) :
    last_membership_in_log s since_index = Except.ok none := by
  rw [last_membership_in_log_eq]
  unfold single_reverse_pass_membership
  cases hh : s.log.head?.map Entry.log_id with
  | none => rfl
  | some fid =>
    simp only [Except.ok.injEq]
    apply find_membership_eq_none.mpr
    intro e he
    rw [List.mem_reverse, mem_log_entries_in_range] at he
    obtain ⟨hel, hge, _⟩ := he
    cases hmem : e.isMembership with
    | false => rfl
    | true =>
      have h1 := h e hel hmem
      have h2 : since_index ≤ e.index := le_trans (le_max_right _ _) hge
      omega

theorem get_membership_sm (s : StorageState)
    (h : ∀ e ∈ s.log, e.isMembership = true → e.index ≤ sm_mem_index s) :
    get_membership s = Except.ok s.sm_mem := by
  rw [get_membership_eq]
  unfold get_membership_pure
  have hnone : single_reverse_pass_membership s (sm_mem_index s + 1) = none := by
    have h2 := last_membership_in_log_none s (sm_mem_index s + 1)
      (fun e he hm => by have := h e he hm; omega)
    rw [last_membership_in_log_eq] at h2
    exact Except.ok.inj h2
  simp [hnone]

theorem last_membership_in_log_spec (s : StorageState) (hwf : s.WF) (since_index : Nat)
    (hex : ∃ e ∈ s.log, e.isMembership = true ∧ since_index ≤ e.index) :
    ∃ em, last_membership_in_log s since_index = Except.ok (some em) ∧
      ({ log_id := em.log_id, payload := EntryPayload.Membership em.membership } : Entry) ∈ s.log ∧
      since_index ≤ em.log_id.index ∧
      ∀ e ∈ s.log, e.isMembership = true → since_index ≤ e.index →
        e.index ≤ em.log_id.index := by
  obtain ⟨w, hw, hwm, hwge⟩ := hex
  cases hl : s.log.head? with
  | none =>
    rw [List.head?_eq_none_iff] at hl
    rw [hl] at hw; cases hw
  | some e0 =>
    rw [last_membership_in_log_eq]
    unfold single_reverse_pass_membership
    rw [hl]
    simp only [Option.map_some']
    rw [range_full hwf]
    have hplf : (s.log.filter
        (fun e => decide (max e0.log_id.index since_index ≤ e.index))).Pairwise
        (fun a b => a.index < b.index) := hwf.filter _
    have hw_start : max e0.log_id.index since_index ≤ w.index :=
      max_le (wf_first_le hwf hl hw) hwge
    have hwfl : w ∈ s.log.filter
        (fun e => decide (max e0.log_id.index since_index ≤ e.index)) :=
      List.mem_filter.mpr ⟨hw, decide_eq_true hw_start⟩
    cases hf : find_membership (s.log.filter
        (fun e => decide (max e0.log_id.index since_index ≤ e.index))).reverse with
    | none =>
      exfalso
      have hnone := find_membership_eq_none.mp hf w (List.mem_reverse.mpr hwfl)
      rw [hwm] at hnone; cases hnone
    | some em =>
      obtain ⟨hin, hmax⟩ := find_reverse_max hplf hf
      refine ⟨em, rfl, List.mem_of_mem_filter hin, ?_, ?_⟩
      · have h1 := (List.mem_filter.mp hin).2
        rw [decide_eq_true_eq] at h1
        exact le_trans (le_max_right _ _) h1
      · intro e he hm hge
        have hefl : e ∈ s.log.filter
            (fun e => decide (max e0.log_id.index since_index ≤ e.index)) :=
          List.mem_filter.mpr
            ⟨he, decide_eq_true (max_le (wf_first_le hwf hl he) hge)⟩
        exact hmax e hefl hm

theorem scan_chain_get (start : Nat) :
    ∀ endIdx k, k < (scan_chain start endIdx).length →
      (scan_chain start endIdx)[k]? = some (start, endIdx - 64 * k) := by
  intro endIdx
  induction endIdx using Nat.strong_induction_on with
  | _ endIdx ih =>
    intro k hk
    rw [scan_chain.eq_def] at hk ⊢
    by_cases h : start < endIdx
    · rw [dif_pos h] at hk ⊢
      cases k with
      | zero => simp
      | succ k =>
        rw [List.getElem?_cons_succ]
        rw [List.length_cons] at hk
        rw [ih (endIdx - 64) (by omega) k (by omega)]
        congr 2
        omega
    · rw [dif_neg h] at hk
      cases hk

theorem scan_queries_take (s : StorageState) (start : Nat) :
    ∀ endIdx, ∃ n, scan_queries s start endIdx = (scan_chain start endIdx).take n := by
  intro endIdx
  induction endIdx using Nat.strong_induction_on with
  | _ endIdx ih =>
    rw [scan_queries.eq_def, scan_chain.eq_def]
    by_cases h : start < endIdx
    · rw [dif_pos h, dif_pos h]
      cases hf : find_membership (log_entries_in_range s start endIdx).reverse with
      | some em => exact ⟨1, by simp⟩
      | none =>
        obtain ⟨n, hn⟩ := ih (endIdx - 64) (by omega)
        exact ⟨n + 1, by rw [List.take_succ_cons, hn]⟩
    · rw [dif_neg h, dif_neg h]
      exact ⟨0, rfl⟩

theorem membership_scan_fuel_adequate (s : StorageState) (start : Nat) :
    ∀ fuel endIdx, endIdx < fuel →
      membership_scan_fuel s start endIdx fuel = some (membership_scan s start endIdx) := by
  intro fuel
  induction fuel with
  | zero => intro e h; omega
  | succ f ih =>
    intro endIdx h
    rw [membership_scan.eq_def]
    show (if start < endIdx then _ else _) = _
    by_cases hlt : start < endIdx
    · rw [if_pos hlt, dif_pos hlt]
      simp only [try_get_log_entries]
      cases hf : find_membership (log_entries_in_range s start endIdx).reverse with
      | some em => rfl
      | none => exact ih (endIdx - 64) (by omega)
    · rw [if_neg hlt, dif_neg hlt]

theorem apply_batch_index :
    ∀ (b : List Entry) (s : StorageState), valid_batch s.last_applied.index b →
      (apply_to_state_machine s b).last_applied.index = s.last_applied.index + b.length := by
  intro b
  induction b with
  | nil => intro s _; simp [apply_to_state_machine]
  | cons e rest ih =>
    intro s hb
    unfold valid_batch at hb
    rw [List.length_cons, List.range'_succ, List.map_cons] at hb
    rw [List.cons.injEq] at hb
    obtain ⟨h1, h2⟩ := hb
    have hstep : apply_to_state_machine s (e :: rest)
        = apply_to_state_machine (apply_one s e) rest := rfl
    have hidx : (apply_one s e).last_applied.index = s.last_applied.index + 1 := by
      unfold apply_one
      unfold Entry.index at h1
      simpa using h1
    rw [hstep, ih (apply_one s e) (by unfold valid_batch; rw [hidx]; exact h2), hidx,
      List.length_cons]
    omega

theorem applied_after_eq :
    ∀ (batches : List (List Entry)) (s0 : StorageState),
      valid_batches s0.last_applied.index batches →
      ∀ i, applied_after s0 batches i
        = s0.last_applied.index + ((batches.take i).map List.length).sum := by
  intro batches
  induction batches with
  | nil => intro s0 _ i; simp [applied_after, apply_batches]
  | cons b bs ih =>
    intro s0 h i
    obtain ⟨hb, hbs⟩ := h
    cases i with
    | zero => simp [applied_after, apply_batches]
    | succ i =>
      have e1 : applied_after s0 (b :: bs) (i + 1)
          = applied_after (apply_to_state_machine s0 b) bs i := by
        unfold applied_after apply_batches
        rw [List.take_succ_cons, List.foldl_cons]
      have hidx := apply_batch_index b s0 hb
      rw [e1, ih (apply_to_state_machine s0 b) (by rw [hidx]; exact hbs) i, hidx,
        List.take_succ_cons, List.map_cons, List.sum_cons]
      omega

/-! Claim theorems. -/

/-- C1 — Membership dominance: for every well-formed storage state whose
state machine has applied membership `m`, if the log holds a `Membership`
entry with the greatest index and that index is past `m`'s, `get_membership`
returns that log membership; if no log `Membership` entry lies past `m`'s
index, `get_membership` returns the state-machine membership `m`. -/
theorem c1_membership_dominance (s : StorageState) (hwf : s.WF)
    (m : EffectiveMembership) (hm : s.sm_mem = some m) :
    (∀ em, greatest_log_membership_above s m.log_id.index em →
        get_membership s = Except.ok (some em)) ∧
    ((∀ e ∈ s.log, e.isMembership = true → e.index ≤ m.log_id.index) →
        get_membership s = Except.ok (some m)) := by
  constructor
  · rintro em ⟨hin, hgt, hmax⟩
    have hidx : ({ log_id := em.log_id, payload := EntryPayload.Membership em.membership } : Entry).index
        = em.log_id.index := rfl
    have hex : ∃ e ∈ s.log, e.isMembership = true ∧ m.log_id.index + 1 ≤ e.index :=
      ⟨_, hin, rfl, by rw [hidx]; omega⟩
    obtain ⟨em', heq, hin', hge', hmax'⟩ :=
      last_membership_in_log_spec s hwf (m.log_id.index + 1) hex
    have h1 : em.log_id.index ≤ em'.log_id.index := by
      have h := hmax' _ hin rfl (by rw [hidx]; omega)
      rw [hidx] at h
      exact h
    have h2 : em'.log_id.index ≤ em.log_id.index := hmax _ hin' rfl
    have hee := index_inj hwf hin' hin
      (show em'.log_id.index = em.log_id.index by omega)
    have hemeq : em' = em := by
      injection hee with hl hp
      injection hp with hmm
      calc em' = ⟨em'.log_id, em'.membership⟩ := rfl
        _ = ⟨em.log_id, em.membership⟩ := by rw [hl, hmm]
        _ = em := rfl
    rw [hemeq] at heq
    unfold get_membership last_applied_state
    simp [hm, heq]
  · intro hno
    have h := get_membership_sm s (fun e he hm' => by
      have := hno e he hm'
      unfold sm_mem_index
      rw [hm]
      exact this)
    rw [h, hm]

/-- C1 witness: with membership applied at index 5 and a log `Membership`
entry at index 9, `get_membership` returns the index-9 membership; after the
log is compacted past index 9, it falls back to the index-5 membership. -/
theorem c1_membership_dominance_witness :
    get_membership c1s = Except.ok (some em9) ∧
    get_membership c1sc = Except.ok (some m5) := by
  constructor
  · exact (c1_membership_dominance c1s (by decide) m5 rfl).1 em9 (by decide)
  · exact (c1_membership_dominance c1sc (by decide) m5 rfl).2 (by decide)

/-- C2 — Greatest-index selection: for every well-formed storage state and
every `since_index`, if the log holds a `Membership` entry with index
`≥ since_index`, then `last_membership_in_log since_index` returns `Some`
membership whose entry is in the log, whose index is `≥ since_index`, and
whose index is the greatest among all such entries. -/
theorem c2_greatest_index_selection (s : StorageState) (hwf : s.WF) (since_index : Nat)
    (hex : ∃ e ∈ s.log, e.isMembership = true ∧ since_index ≤ e.index) :
    ∃ em, last_membership_in_log s since_index = Except.ok (some em) ∧
      ({ log_id := em.log_id, payload := EntryPayload.Membership em.membership } : Entry) ∈ s.log ∧
      since_index ≤ em.log_id.index ∧
      ∀ e ∈ s.log, e.isMembership = true → since_index ≤ e.index →
        e.index ≤ em.log_id.index :=
  last_membership_in_log_spec s hwf since_index hex

/-- C2 witness: with `Membership` entries at indices 4 and 9 and
`since_index = 3`, the scan returns the index-9 membership, not index-4. -/
theorem c2_greatest_index_selection_witness :
    ∃ em, last_membership_in_log c2s 3 = Except.ok (some em) ∧
      ({ log_id := em.log_id, payload := EntryPayload.Membership em.membership } : Entry) ∈ c2s.log ∧
      3 ≤ em.log_id.index ∧
      ∀ e ∈ c2s.log, e.isMembership = true → 3 ≤ e.index → e.index ≤ em.log_id.index :=
  c2_greatest_index_selection c2s (by decide) 3
    ⟨{ log_id := { term := 2, index := 9 }, payload := EntryPayload.Membership memA },
      by decide, by decide, by decide⟩

/-- C3 — Monotonic apply: along any sequence of gap-free applied batches,
the applied index reported by `last_applied_state` never decreases from one
observation point to a later one, and each batch advances it by exactly the
number of entries in that batch. -/
theorem c3_monotonic_apply (s0 : StorageState) (batches : List (List Entry))
    (h : valid_batches s0.last_applied.index batches) :
    (∀ i j, i ≤ j → applied_after s0 batches i ≤ applied_after s0 batches j) ∧
    (∀ i b, batches[i]? = some b →
      applied_after s0 batches (i + 1) = applied_after s0 batches i + b.length) := by
  constructor
  · intro i j hij
    rw [applied_after_eq batches s0 h i, applied_after_eq batches s0 h j]
    have hsplit : (batches.take j).map List.length
        = (batches.take i).map List.length
          ++ (((batches.drop i).take (j - i)).map List.length) := by
      rw [← List.map_append, ← List.take_add, Nat.add_sub_cancel' hij]
    rw [hsplit, List.sum_append]
    omega
  · intro i b hb
    obtain ⟨hi, hbi⟩ := List.getElem?_eq_some.mp hb
    rw [applied_after_eq batches s0 h (i + 1), applied_after_eq batches s0 h i]
    rw [List.map_take, List.map_take]
    have hlen : i < (batches.map List.length).length := by simpa using hi
    rw [List.sum_take_succ _ i hlen]
    have hget : (batches.map List.length)[i] = b.length := by
      have h2 : (batches.map List.length)[i]? = some b.length := by
        rw [List.getElem?_map, hb]; rfl
      rw [List.getElem?_eq_getElem hlen] at h2
      exact Option.some.inj h2
    rw [hget]
    omega

/-- C3 witness: applying batches `[1]` then `[2, 3]` from a pristine state,
the observed applied index does not decrease between the two batch
boundaries and the second batch advances it by exactly 2. -/
theorem c3_monotonic_apply_witness :
    applied_after c3s0 c3batches 1 ≤ applied_after c3s0 c3batches 2 ∧
    applied_after c3s0 c3batches 2 = applied_after c3s0 c3batches 1 + 2 := by
  have h := c3_monotonic_apply c3s0 c3batches (by decide)
  exact ⟨h.1 1 2 (by omega),
    h.2 1 [ { log_id := { term := 1, index := 2 }, payload := EntryPayload.Normal 0 }
          , { log_id := { term := 1, index := 3 }, payload := EntryPayload.Membership memA } ]
      rfl⟩

/-- C4 counterexample: on a log of 66 entries at indices 1..66 with
`since_index = 0`, the very first range the scan passes to
`try_get_log_entries` is `[1, 67)`, which spans 66 > 64 indices — the claim
that every passed range spans at most 64 indices is false. -/
theorem c4_counterexample :
    (1, 67) ∈ last_membership_in_log_queries c4s 0 ∧ 64 < 67 - 1 := by
  constructor
  · have h : last_membership_in_log_queries c4s 0 = scan_queries c4s 1 67 := rfl
    rw [h, scan_queries.eq_def, dif_pos (by omega : (1:Nat) < 67)]
    exact List.mem_cons_self _ _
  · omega

/-- C4 (amended) — Backward shrinking scan: every storage state's scan
passes an initial segment of a fixed chain of ranges to
`try_get_log_entries`; in that chain the lower bound is pinned at
`max(first index, since_index)` and the upper bound starts at
`last index + 1` and falls by exactly 64 per iteration (saturating), so the
first range spans the entire scan window rather than at most 64 indices. -/
theorem c4_shrinking_windows (s : StorageState) (since_index : Nat) :
    (∃ n, last_membership_in_log_queries s since_index
        = (scan_chain_of s since_index).take n) ∧
    (∀ k, k < (scan_chain_of s since_index).length →
      (scan_chain_of s since_index)[k]? =
        some (scan_start_of s since_index, ((last_log_id_of s).index + 1) - 64 * k)) := by
  constructor
  · unfold last_membership_in_log_queries scan_chain_of
    cases h : s.log.head?.map Entry.log_id with
    | none => exact ⟨0, rfl⟩
    | some fid => exact scan_queries_take s _ _
  · unfold scan_chain_of scan_start_of
    cases h : s.log.head?.map Entry.log_id with
    | none => intro k hk; cases hk
    | some fid =>
      intro k hk
      simp only [Option.getD_some]
      exact scan_chain_get _ _ k hk

/-- C5 counterexample: with no membership applied to the state machine and a
`Membership` entry stored at log index 0, `get_membership` returns `None`
instead of that membership — the scan starts at `since_index = 1`, not 0. -/
theorem c5_counterexample :
    c5x.sm_mem = none ∧
    ({ log_id := { term := 1, index := 0 }, payload := EntryPayload.Membership memA } : Entry)
      ∈ c5x.log ∧
    get_membership c5x = Except.ok none := by
  refine ⟨rfl, by decide, ?_⟩
  rw [get_membership_eq]
  rfl

/-- C5 (amended) — Scan start for a pristine state machine: when no
membership has been applied, `get_membership` treats the applied membership
index as 0 and scans from `since_index = 0 + 1 = 1`, so the greatest-index
`Membership` entry among those at log index ≥ 1 is found and returned (an
entry at log index 0 is outside the scanned range). -/
theorem c5_pristine_scan_start (s : StorageState) (hwf : s.WF) (hm : s.sm_mem = none)
    (hex : ∃ e ∈ s.log, e.isMembership = true ∧ 1 ≤ e.index) :
    ∃ em, get_membership s = Except.ok (some em) ∧
      ({ log_id := em.log_id, payload := EntryPayload.Membership em.membership } : Entry) ∈ s.log ∧
      1 ≤ em.log_id.index ∧
      ∀ e ∈ s.log, e.isMembership = true → 1 ≤ e.index → e.index ≤ em.log_id.index := by
  obtain ⟨em, heq, hin, hge, hmax⟩ := last_membership_in_log_spec s hwf 1 hex
  refine ⟨em, ?_, hin, hge, hmax⟩
  unfold get_membership last_applied_state
  simp [hm, Nat.zero_add, heq]

/-- C5 witness: pristine state machine, `Membership` entry at log index 2 —
`get_membership` finds it. -/
theorem c5_pristine_scan_start_witness :
    ∃ em, get_membership c5s = Except.ok (some em) ∧
      ({ log_id := em.log_id, payload := EntryPayload.Membership em.membership } : Entry) ∈ c5s.log ∧
      1 ≤ em.log_id.index ∧
      ∀ e ∈ c5s.log, e.isMembership = true → 1 ≤ e.index → e.index ≤ em.log_id.index :=
  c5_pristine_scan_start c5s (by decide) rfl
    ⟨{ log_id := { term := 1, index := 2 }, payload := EntryPayload.Membership memA },
      by decide, by decide, by decide⟩

/-- C6 — Empty-log fallback: when the log is entirely empty
(`first_id_in_log` returns `None`), `last_membership_in_log` returns `None`
for every `since_index`, and `get_membership` returns exactly the
state-machine membership. -/
theorem c6_empty_log_fallback (s : StorageState)
    (h : first_id_in_log s = Except.ok none) :
    (∀ since_index, last_membership_in_log s since_index = Except.ok none) ∧
    get_membership s = Except.ok s.sm_mem := by
  have hnil : s.log = [] := by
    unfold first_id_in_log at h
    have h2 := Except.ok.inj h
    rw [Option.map_eq_none'] at h2
    exact List.head?_eq_none_iff.mp h2
  constructor
  · intro since_index
    exact last_membership_in_log_none s since_index
      (by intro e he; rw [hnil] at he; cases he)
  · exact get_membership_sm s (by intro e he; rw [hnil] at he; cases he)

/-- C6 witness: an empty log over a state machine holding membership `m5` —
the scan yields `None` and `get_membership` yields `m5`. -/
theorem c6_empty_log_fallback_witness :
    last_membership_in_log c6s 0 = Except.ok none ∧
    get_membership c6s = Except.ok (some m5) :=
  ⟨(c6_empty_log_fallback c6s rfl).1 0, (c6_empty_log_fallback c6s rfl).2⟩

/-- C7 — Pristine bootstrap: for every node id, `InitialState::new_initial`
yields `last_log_id = last_applied = LogId{0,0}`, a default hard state, and
a single-node membership containing only that node's id, annotated with log
id `{0,0}`. -/
theorem c7_pristine_bootstrap (id : NodeId) :
    (InitialState.new_initial id).last_log_id = { term := 0, index := 0 } ∧
    (InitialState.new_initial id).last_applied = { term := 0, index := 0 } ∧
    (InitialState.new_initial id).hard_state = { current_term := 0, voted_for := none } ∧
    (InitialState.new_initial id).last_membership =
      { log_id := { term := 0, index := 0 }, membership := Membership.new_initial id } ∧
    (Membership.new_initial id).members = [id] ∧
    (Membership.new_initial id).learners = [] :=
  ⟨rfl, rfl, rfl, rfl, rfl, rfl⟩

/-- C8 — Absence is not an error: when no `Membership` entry with index
`≥ since_index` is in the log, `last_membership_in_log` returns `Ok(None)`,
and when none lies past the applied membership index, `get_membership`
returns `Ok` of the state-machine membership — never an `Err`. -/
theorem c8_absence_not_error (s : StorageState) (since_index : Nat)
    (h : ∀ e ∈ s.log, e.isMembership = true → e.index < since_index) :
    last_membership_in_log s since_index = Except.ok none ∧
    ((∀ e ∈ s.log, e.isMembership = true → e.index ≤ sm_mem_index s) →
      get_membership s = Except.ok s.sm_mem) :=
  ⟨last_membership_in_log_none s since_index h, fun h2 => get_membership_sm s h2⟩

/-- C8 witness: a log with no `Membership` entry at all — the scan returns
`Ok(None)` at `since_index = 5` and `get_membership` returns the applied
membership. -/
theorem c8_absence_not_error_witness :
    last_membership_in_log c8s 5 = Except.ok none ∧
    get_membership c8s = Except.ok (some m5) := by
  have h := c8_absence_not_error c8s 5 (by decide)
  exact ⟨h.1, h.2 (by decide)⟩

/-- C9 — Termination of the membership scan: the `while start < end` loop,
run with an explicit iteration budget of `end + 1`, finishes within the
budget (the fuelled loop never reports fuel exhaustion) and computes the
same result as the loop itself, for every storage state, `start` and `end`.
-/
theorem c9_scan_terminates (s : StorageState) (start endIdx : Nat) :
    membership_scan_fuel s start endIdx (endIdx + 1)
      = some (membership_scan s start endIdx) :=
  membership_scan_fuel_adequate s start (endIdx + 1) endIdx (by omega)

/-- C10 — Scan-loop collapse: for every storage state and `since_index`,
`last_membership_in_log` returns exactly the result of a single reverse pass
over the entire range `[max(first index, since_index), last index + 1)` —
the first loop iteration, which reads that whole range, already determines
the outcome, and the later iterations over sub-ranges never change it. -/
theorem c10_scan_collapse (s : StorageState) (since_index : Nat) :
    last_membership_in_log s since_index
      = Except.ok (single_reverse_pass_membership s since_index) :=
  last_membership_in_log_eq s since_index

end Openraft
